import Mathlib

/-!
Shallow embedding of the group membership cache and batched on-chain
synchronization engine implemented in
`apps/api/src/app/groups/groups.service.ts`.

The service keeps a persisted repository of group records, an in-memory map
of per-group incremental Merkle trees, a queue of pending (groupId, root)
updates, and a fire-and-forget publication step to an external contract.
External collaborators (the record store, the invite subsystem, the Merkle
tree primitive, the ledger client, the scheduler registry) are modelled from
the interface contracts given in the specification; the service logic itself
is translated line by line from the source.

Member identity commitments are modelled directly as natural numbers (the
source stores decimal strings and converts with BigInt at every use; the
conversion is the identity in this model).  JavaScript exceptions become an
explicit error type; the asynchronous suspension point inside the
publication step is made explicit by splitting it into a start phase (runs
synchronously up to the awaited ledger submission) and a resume phase (runs
when the submission settles).
-/

set_option autoImplicit false

deriving instance DecidableEq for Except

namespace Bandada

/-- Pairing hash used by the Merkle-tree model.  Modelled from the spec: the
tree primitive is an external trusted library and the spec excludes the
concrete hashing scheme, so a fixed computable pairing function stands in
for it. -/
def hashPair (a b : Nat) : Nat := Nat.pair a b + 1

/-- Zero value of each level of the incremental tree (level 0 is the leaf
level); the zero of a level is the hash of two zeros of the level below. -/
def zeros : Nat → Nat
  | 0 => 0
  | l + 1 => hashPair (zeros l) (zeros l)

/-- Hash one level of nodes into the level above, padding a trailing odd
node with the zero value of the current level. -/
def pairUp (level : Nat) : List Nat → List Nat
  | [] => []
  | [a] => [hashPair a (zeros level)]
  | a :: b :: rest => hashPair a b :: pairUp level rest

/-- Root of a tree of the given depth whose level-`level` nodes are
`nodes`; an empty tree has the zero value of its top level as root. -/
def rootAux : Nat → Nat → List Nat → Nat
  | 0, level, nodes => nodes.headD (zeros level)
  | d + 1, level, nodes => rootAux d (level + 1) (pairUp level nodes)

/-- Sibling path and path indices for the leaf at position `i`.  Modelled
from the spec contract of the external tree primitive
(`generateMerkleProof(index) -> proof`). -/
def genProofAux : Nat → Nat → List Nat → Nat → List Nat × List Nat
  | 0, _, _, _ => ([], [])
  | d + 1, level, nodes, i =>
    let sib := if i % 2 = 0 then nodes.getD (i + 1) (zeros level)
               else nodes.getD (i - 1) (zeros level)
    let rest := genProofAux d (level + 1) (pairUp level nodes) (i / 2)
    (sib :: rest.1, i % 2 :: rest.2)

/-- Fold a sibling path back up to a root, starting from a leaf value. -/
def recomputeAux : Nat → List Nat → List Nat → Nat
  | cur, sb :: ss, b :: bs =>
    recomputeAux (if b = 0 then hashPair cur sb else hashPair sb cur) ss bs
  | cur, _, _ => cur

/-- Index of the first occurrence of `leaf`, or `-1` when absent, following
the JavaScript `indexOf` convention used by the source. -/
def listIndexOf (leaf : Nat) : List Nat → Int
  | [] => -1
  | x :: xs =>
    if x = leaf then 0
    else if listIndexOf leaf xs = -1 then -1 else listIndexOf leaf xs + 1

/-- In-memory cached Merkle group (`Group` from `@semaphore-protocol/group`).
Modelled from the spec contract of the external primitive: an optional
identifier seed (the spec describes the seed as determining the tree's
identifier only), a fixed depth, and the ordered leaf sequence. -/
structure CachedGroup where
  gid : Option Nat
  depth : Nat
  leaves : List Nat
  deriving Repr, DecidableEq

/-- Current root of the cached tree (read-only derived property). -/
def CachedGroup.root (g : CachedGroup) : Nat := rootAux g.depth 0 g.leaves

/-- Append one leaf (`addMember` of the external primitive). -/
def CachedGroup.addMember (g : CachedGroup) (m : Nat) : CachedGroup :=
  { g with leaves := g.leaves ++ [m] }

/-- Append many leaves in order (`addMembers` of the external primitive). -/
def CachedGroup.addMembers (g : CachedGroup) (ms : List Nat) : CachedGroup :=
  ms.foldl CachedGroup.addMember g

/-- Leaf index lookup (`indexOf` of the external primitive, `-1` = absent). -/
def CachedGroup.indexOf (g : CachedGroup) (leaf : Nat) : Int :=
  listIndexOf leaf g.leaves

/-- Merkle inclusion proof as returned by the external primitive. -/
structure MerkleProof where
  root : Nat
  leaf : Nat
  siblings : List Nat
  pathIndices : List Nat
  deriving Repr, DecidableEq

/-- Proof for the leaf at position `i` of the cached tree. -/
def CachedGroup.generateMerkleProof (g : CachedGroup) (i : Nat) : MerkleProof :=
  { root := g.root
    leaf := g.leaves.getD i 0
    siblings := (genProofAux g.depth 0 g.leaves i).1
    pathIndices := (genProofAux g.depth 0 g.leaves i).2 }

/-- Root recomputed from a proof by folding the sibling path. -/
def MerkleProof.recompute (p : MerkleProof) : Nat :=
  recomputeAux p.leaf p.siblings p.pathIndices

/-- Persisted group record (the `Group` entity).  `rid` models the
database-generated primary key: `none` on a freshly created, not yet saved
entity, `some` on every persisted record. -/
structure GroupRec where
  rid : Option Nat
  name : String
  description : String
  treeDepth : Nat
  tag : String
  admin : String
  members : List Nat
  deriving Repr, DecidableEq

/-- Pending contract update (`zkGroups.Group`): deterministic group id and
the root fingerprint at enqueue time. -/
structure PendingUpdate where
  id : Nat
  fingerprint : Nat
  deriving Repr, DecidableEq

/-- Errors observable from the service.  `badRequest`, `notFound` and
`unauthorized` model the NestJS exceptions thrown by the service code
itself; `storeUnique` models the store-layer uniqueness-constraint
violation (the store persists records with a uniqueness constraint on
`name`, per the spec's interface contract); `typeError` models the
JavaScript TypeError raised when the code dereferences an absent map
entry (`undefined`). -/
inductive SvcError where
  | badRequest (msg : String)
  | notFound (msg : String)
  | unauthorized (msg : String)
  | storeUnique
  | typeError
  deriving Repr, DecidableEq

/-- True exactly for the errors constructed and thrown by the service code
itself (the NestJS HTTP exceptions in the source), as opposed to failures
propagated from external collaborators or the JavaScript runtime. -/
def SvcError.raisedByService : SvcError → Bool
  | .badRequest _ => true
  | .notFound _ => true
  | .unauthorized _ => true
  | .storeUnique => false
  | .typeError => false

/-- Deterministic large-integer id derived from a group name
(`BigInt(id(name))` with the keccak hash of `@ethersproject/hash`; modelled
from the spec as an arbitrary fixed deterministic function of the name). -/
def idHash (s : String) : Nat :=
  s.data.foldl (fun a c => a * 131 + c.toNat + 1) 7

/-- Whole state touched by `GroupsService`: the persisted repository
(`store` plus the fresh-key counter `nextRid`), the in-memory tree map
`cachedGroups`, the pending-update queue `updatedGroups`, the invite
subsystem's outstanding one-time codes, the scheduler registry's pending
timeout count, the batches submitted to the ledger client so far, and two
log counters. -/
structure ServiceState where
  store : List GroupRec
  nextRid : Nat
  cachedGroups : List (String × CachedGroup)
  updatedGroups : List PendingUpdate
  inviteCodes : List (String × String)
  timeouts : Nat
  submitted : List (List PendingUpdate)
  infoLogs : Nat
  errorLogs : Nat
  deriving Repr, DecidableEq

/-- Lookup in the in-memory map (`Map.get`, first matching key). -/
def mapGet (m : List (String × CachedGroup)) (k : String) : Option CachedGroup :=
  match m with
  | [] => none
  | p :: rest => if p.1 = k then some p.2 else mapGet rest k

/-- Update in the in-memory map (`Map.set`: replace in place when the key
exists, append otherwise). -/
def mapSet (m : List (String × CachedGroup)) (k : String) (v : CachedGroup) :
    List (String × CachedGroup) :=
  if ∃ p ∈ m, p.1 = k then m.map (fun p => if p.1 = k then (k, v) else p)
  else m ++ [(k, v)]

/-- Repository lookup by name (`findOneBy({ name })`). -/
def findGroup : List GroupRec → String → Option GroupRec
  | [], _ => none
  | g :: rest, n => if g.name = n then some g else findGroup rest n

/-- Repository `save`.  Modelled from the spec's store contract: saving a
fresh entity (no primary key) inserts it subject to the uniqueness
constraint on `name`; saving a loaded entity updates the row with its
primary key. -/
def repoSave (s : ServiceState) (g : GroupRec) : Except SvcError ServiceState :=
  match g.rid with
  | none =>
    if ∃ r ∈ s.store, r.name = g.name then .error .storeUnique
    else
      .ok { s with
              store := s.store ++ [{ g with rid := some s.nextRid }]
              nextRid := s.nextRid + 1 }
  | some _ =>
    .ok { s with store := s.store.map (fun r => if r.rid = g.rid then g else r) }

/-- Invite redemption (`InvitesService.redeemInvite`).  Modelled from the
spec: a one-time (code, groupName) credential is consumed on success; an
unknown or spent credential fails with the invite subsystem's error, which
propagates verbatim. -/
def redeemInvite (s : ServiceState) (code groupName : String) :
    Except SvcError ServiceState :=
  if (code, groupName) ∈ s.inviteCodes then
    .ok { s with inviteCodes := s.inviteCodes.erase (code, groupName) }
  else .error (.badRequest ("invalid invite code " ++ code))

/-- `getGroup`: repository passthrough, NotFoundException when absent. -/
def getGroup (s : ServiceState) (groupName : String) : Except SvcError GroupRec :=
  match findGroup s.store groupName with
  | some g => .ok g
  | none => .error (.notFound ("Group " ++ groupName ++ " does not exist"))

/-- `isGroupMember`: the source reads `this.cachedGroups.get(groupName)`
and immediately calls `.indexOf` on the result without a presence check, so
an unknown name dereferences `undefined` and raises a TypeError. -/
def isGroupMember (s : ServiceState) (groupName : String) (member : Nat) :
    Except SvcError Bool :=
  match mapGet s.cachedGroups groupName with
  | none => .error .typeError
  | some cachedGroup => .ok (cachedGroup.indexOf member != -1)

/-- `generateMerkleProof`: re-verifies membership (BadRequestException for
non-members, and the unguarded TypeError of `isGroupMember` for unknown
groups), then generates the proof at the member's index. -/
def generateMerkleProof (s : ServiceState) (groupName : String) (member : Nat) :
    Except SvcError MerkleProof :=
  match isGroupMember s groupName member with
  | .error e => .error e
  | .ok false =>
    .error (.badRequest
      ("Member does not exist in the group " ++ groupName))
  | .ok true =>
    match mapGet s.cachedGroups groupName with
    | none => .error .typeError
    | some cachedGroup =>
      .ok (cachedGroup.generateMerkleProof (cachedGroup.indexOf member).toNat)

/-- Push one entry onto the pending-update queue
(`this.updatedGroups.push(...)`). -/
def enqueueUpdate (s : ServiceState) (u : PendingUpdate) : ServiceState :=
  { s with updatedGroups := s.updatedGroups ++ [u] }

/-- Delay of the single publication timeout the scheduling framework
registers at startup for `updateContractGroups` (the `@Timeout(60 * 1000)`
decorator). -/
def publicationTimeoutMs : Nat := 60 * 1000

/-- Start phase of `updateContractGroups`: the body runs synchronously up
to the awaited ledger submission, so when the queue is non-empty the batch
is handed to the ledger client immediately; the queue itself is not touched
yet.  When the queue is empty the body returns at once and the resume phase
never runs. -/
def updateContractGroupsStart (s : ServiceState) : ServiceState :=
  if s.updatedGroups.length > 0 then
    { s with submitted := s.submitted ++ [s.updatedGroups] }
  else s

/-- Resume phase of `updateContractGroups`: once the submitted transaction
settles with `txStatus`, the queue is cleared (`this.updatedGroups = []`)
and a success or failure line is logged. -/
def updateContractGroupsResume (s : ServiceState) (txStatus : Bool) : ServiceState :=
  let s1 := { s with updatedGroups := ([] : List PendingUpdate) }
  if txStatus then { s1 with infoLogs := s1.infoLogs + 1 }
  else { s1 with errorLogs := s1.errorLogs + 1 }

/-- Whole run of `updateContractGroups` with no interleaved enqueue between
the suspension point and the resume phase. -/
def updateContractGroups (s : ServiceState) (txStatus : Bool) : ServiceState :=
  if s.updatedGroups.length > 0 then
    updateContractGroupsResume (updateContractGroupsStart s) txStatus
  else s

/-- `createGroup`: builds a fresh record with an empty member list, saves
it (the source performs no duplicate-name check of its own; a taken name
fails inside the store), then registers a fresh cached tree under the name
(`new CachedGroup(treeDepth)`, the unseeded constructor) and returns the
record. -/
def createGroup (s : ServiceState) (name description : String) (treeDepth : Nat)
    (tag admin : String) : Except SvcError GroupRec × ServiceState :=
  let g : GroupRec :=
    { rid := none, name := name, description := description
      treeDepth := treeDepth, tag := tag, admin := admin, members := [] }
  match repoSave s g with
  | .error e => (.error e, s)
  | .ok s1 =>
    let saved : GroupRec := { g with rid := some s.nextRid }
    let cachedGroup : CachedGroup := { gid := none, depth := treeDepth, leaves := [] }
    (.ok saved, { s1 with cachedGroups := mapSet s1.cachedGroups name cachedGroup })

/-- `addMember`: duplicate check, invite redemption, repository append and
save, cached-tree append, queue push, then the publication trigger — when
the scheduler registry holds no timeout the source calls
`this.updateContractGroups()` directly (fire and forget), which runs the
start phase synchronously inside this call. -/
def addMember (s : ServiceState) (inviteCode groupName : String) (member : Nat) :
    Except SvcError GroupRec × ServiceState :=
  match isGroupMember s groupName member with
  | .error e => (.error e, s)
  | .ok true =>
    (.error (.badRequest
      ("Member already exists in the group " ++ groupName)), s)
  | .ok false =>
    match redeemInvite s inviteCode groupName with
    | .error e => (.error e, s)
    | .ok s1 =>
      match getGroup s1 groupName with
      | .error e => (.error e, s1)
      | .ok g =>
        let g1 : GroupRec := { g with members := g.members ++ [member] }
        match repoSave s1 g1 with
        | .error e => (.error e, s1)
        | .ok s2 =>
          match mapGet s2.cachedGroups groupName with
          | none => (.error .typeError, s2)
          | some cachedGroup =>
            let cg1 := cachedGroup.addMember member
            let s3 := { s2 with cachedGroups := mapSet s2.cachedGroups groupName cg1 }
            let s4 := enqueueUpdate s3 ⟨idHash g1.name, cg1.root⟩
            let s5 := if s4.timeouts = 0 then updateContractGroupsStart s4 else s4
            (.ok g1, s5)

/-- Loop body of the constructor's bootstrap: build a tree seeded with the
id derived from the group name at the record's depth, insert all persisted
members in stored order, and register it under the record's name. -/
def bootstrapStep (m : List (String × CachedGroup)) (g : GroupRec) :
    List (String × CachedGroup) :=
  mapSet m g.name
    (CachedGroup.addMembers ⟨some (idHash g.name), g.treeDepth, []⟩ g.members)

/-- Bootstrap performed by the constructor: starting from an empty map, run
the loop body over every persisted record. -/
def bootstrapCache (store : List GroupRec) : List (String × CachedGroup) :=
  store.foldl bootstrapStep []

/-- Root obtained by inserting `members`, in order, into a freshly created
tree of depth `depth`.  This definition follows the wording of the spec's
bootstrap-fidelity property, for comparison with the cached roots the
service maintains. -/
def freshInsertRoot (depth : Nat) (members : List Nat) : Nat :=
  (CachedGroup.addMembers ⟨none, depth, []⟩ members).root

/-- Root of the cached tree registered under a name, when one exists. -/
def rootOf (s : ServiceState) (groupName : String) : Option Nat :=
  (mapGet s.cachedGroups groupName).map CachedGroup.root

/-- Name uniqueness of the persisted store (spec: records are persisted
with a uniqueness constraint on `name`). -/
def namesUnique (store : List GroupRec) : Prop :=
  store.Pairwise (fun a b => a.name ≠ b.name)

/-- Well-formedness of the persisted primary keys: every persisted record
has one, keys are pairwise distinct, and the fresh-key counter is ahead of
all of them. -/
def ridsOk (s : ServiceState) : Prop :=
  (∀ g ∈ s.store, g.rid.isSome = true) ∧
  (∀ g ∈ s.store, g.rid.getD 0 < s.nextRid) ∧
  s.store.Pairwise (fun a b => a.rid ≠ b.rid)

/-- Cache-store mirror invariant: the store is well formed, every cached
tree mirrors the persisted record of its name (same ordered leaf/member
sequence and same depth), and every persisted record has a cached tree
registered under its name. -/
def mirror (s : ServiceState) : Prop :=
  namesUnique s.store ∧ ridsOk s ∧
  (∀ p ∈ s.cachedGroups, ∃ g ∈ s.store,
    g.name = p.1 ∧ p.2.leaves = g.members ∧ p.2.depth = g.treeDepth) ∧
  (∀ g ∈ s.store, (mapGet s.cachedGroups g.name).isSome = true)

instance (store : List GroupRec) : Decidable (namesUnique store) := by
  unfold namesUnique; infer_instance

instance (s : ServiceState) : Decidable (ridsOk s) := by
  unfold ridsOk; infer_instance

instance (s : ServiceState) : Decidable (mirror s) := by
  unfold mirror; infer_instance

/-- Concrete persisted record used by the concrete-input theorems. -/
def demoGroup : GroupRec :=
  { rid := some 0, name := "voters", description := "d", treeDepth := 2
    tag := "t", admin := "alice", members := [] }

/-- Concrete service state: one empty group with one outstanding invite,
an empty scheduler registry and an empty queue. -/
def s0 : ServiceState :=
  { store := [demoGroup], nextRid := 1
    cachedGroups := [("voters", ⟨none, 2, []⟩)]
    updatedGroups := [], inviteCodes := [("inv1", "voters")]
    timeouts := 0, submitted := [], infoLogs := 0, errorLogs := 0 }

/-- Concrete service state with no invites outstanding. -/
def s0NoInv : ServiceState := { s0 with inviteCodes := [] }

/-- Concrete service state with one pending timeout in the registry. -/
def s0Timeout : ServiceState := { s0 with timeouts := 1 }

/-- Concrete empty service state. -/
def sEmpty : ServiceState :=
  { store := [], nextRid := 0, cachedGroups := [], updatedGroups := []
    inviteCodes := [], timeouts := 0, submitted := [], infoLogs := 0
    errorLogs := 0 }

/-- Concrete state whose queue holds a single pending update. -/
def s1q : ServiceState := { sEmpty with updatedGroups := [⟨1, 10⟩] }

/-! Lemmas about the in-memory map. -/

theorem mapGet_nil (k : String) : mapGet [] k = none := rfl

theorem mapGet_cons (p : String × CachedGroup) (rest : List (String × CachedGroup))
    (k : String) : mapGet (p :: rest) k = if p.1 = k then some p.2 else mapGet rest k := rfl

theorem mapGet_replace (m : List (String × CachedGroup)) (k : String) (v : CachedGroup)
    (hex : ∃ p ∈ m, p.1 = k) :
    mapGet (m.map (fun p => if p.1 = k then (k, v) else p)) k = some v := by
  induction m with
  | nil => simp at hex
  | cons p rest ih =>
    by_cases hp : p.1 = k
    · simp [mapGet_cons, hp]
    · obtain ⟨q, hq, hqk⟩ := hex
      rcases List.mem_cons.mp hq with rfl | hq2
      · exact absurd hqk hp
      · simp only [List.map_cons, mapGet_cons, if_neg hp]
        exact ih ⟨q, hq2, hqk⟩

theorem mapGet_replace_ne (m : List (String × CachedGroup)) (k k2 : String)
    (v : CachedGroup) (hne : k2 ≠ k) :
    mapGet (m.map (fun p => if p.1 = k then (k, v) else p)) k2 = mapGet m k2 := by
  induction m with
  | nil => rfl
  | cons p rest ih =>
    by_cases hp : p.1 = k
    · have h1 : p.1 ≠ k2 := by rw [hp]; exact fun h => hne h.symm
      simp only [List.map_cons, mapGet_cons, if_pos hp]
      rw [if_neg (fun h : k = k2 => hne h.symm), if_neg h1]
      exact ih
    · simp only [List.map_cons, mapGet_cons, if_neg hp]
      by_cases h2 : p.1 = k2
      · rw [if_pos h2, if_pos h2]
      · rw [if_neg h2, if_neg h2]
        exact ih

theorem mapGet_append (m m2 : List (String × CachedGroup)) (k : String)
    (h : ∀ p ∈ m, p.1 ≠ k) : mapGet (m ++ m2) k = mapGet m2 k := by
  induction m with
  | nil => rfl
  | cons p rest ih =>
    simp only [List.cons_append, mapGet_cons]
    rw [if_neg (h p (List.mem_cons_self p rest))]
    exact ih (fun q hq => h q (List.mem_cons_of_mem p hq))

theorem mapGet_append_one (m : List (String × CachedGroup)) (k k2 : String)
    (v : CachedGroup) (hne : k2 ≠ k) : mapGet (m ++ [(k, v)]) k2 = mapGet m k2 := by
  induction m with
  | nil =>
    simp only [List.nil_append, mapGet_cons, mapGet_nil]
    rw [if_neg (fun h : (k, v).1 = k2 => hne h.symm)]
  | cons p rest ih =>
    simp only [List.cons_append, mapGet_cons]
    by_cases h2 : p.1 = k2
    · rw [if_pos h2, if_pos h2]
    · rw [if_neg h2, if_neg h2]
      exact ih

theorem mapGet_mapSet_self (m : List (String × CachedGroup)) (k : String)
    (v : CachedGroup) : mapGet (mapSet m k v) k = some v := by
  unfold mapSet
  split
  · rename_i hex
    exact mapGet_replace m k v hex
  · rename_i hex
    rw [mapGet_append m [(k, v)] k (fun p hp hk => hex ⟨p, hp, hk⟩)]
    simp [mapGet_cons]

theorem mapGet_mapSet_ne (m : List (String × CachedGroup)) (k k2 : String)
    (v : CachedGroup) (hne : k2 ≠ k) : mapGet (mapSet m k v) k2 = mapGet m k2 := by
  unfold mapSet
  split
  · exact mapGet_replace_ne m k k2 v hne
  · exact mapGet_append_one m k k2 v hne

theorem mem_mapSet {m : List (String × CachedGroup)} {k : String} {v : CachedGroup}
    {p : String × CachedGroup} (hp : p ∈ mapSet m k v) :
    p = (k, v) ∨ (p ∈ m ∧ p.1 ≠ k) := by
  unfold mapSet at hp
  split at hp
  · obtain ⟨q, hq, hfq⟩ := List.mem_map.mp hp
    by_cases h : q.1 = k
    · left; rw [← hfq, if_pos h]
    · right; rw [← hfq, if_neg h]; exact ⟨hq, h⟩
  · rename_i hex
    rcases List.mem_append.mp hp with h | h
    · right; exact ⟨h, fun hk => hex ⟨p, h, hk⟩⟩
    · left; simpa using h

theorem mapGet_some_mem {m : List (String × CachedGroup)} {k : String}
    {v : CachedGroup} (h : mapGet m k = some v) : (k, v) ∈ m := by
  induction m with
  | nil => simp [mapGet] at h
  | cons p rest ih =>
    unfold mapGet at h
    by_cases hp : p.1 = k
    · rw [if_pos hp] at h
      injection h with h
      subst h
      rw [← hp]
      exact List.mem_cons_self p rest
    · rw [if_neg hp] at h
      exact List.mem_cons_of_mem p (ih h)

/-! Lemmas about pairwise-distinct keys and the repository. -/

theorem pairwise_inj {α β : Type} {key : α → β} {l : List α}
    (h : l.Pairwise (fun a b => key a ≠ key b)) {a b : α}
    (ha : a ∈ l) (hb : b ∈ l) (hk : key a = key b) : a = b := by
  induction l with
  | nil => cases ha
  | cons x rest ih =>
    rw [List.pairwise_cons] at h
    rcases List.mem_cons.mp ha with rfl | ha2 <;>
      rcases List.mem_cons.mp hb with rfl | hb2
    · rfl
    · exact absurd hk (h.1 b hb2)
    · exact absurd hk.symm (h.1 a ha2)
    · exact ih h.2 ha2 hb2

theorem findGroup_cons (g : GroupRec) (rest : List GroupRec) (n : String) :
    findGroup (g :: rest) n = if g.name = n then some g else findGroup rest n := rfl

theorem findGroup_some {store : List GroupRec} {n : String} {g : GroupRec}
    (h : findGroup store n = some g) : g ∈ store ∧ g.name = n := by
  induction store with
  | nil => simp [findGroup] at h
  | cons x rest ih =>
    rw [findGroup_cons] at h
    by_cases hx : x.name = n
    · rw [if_pos hx] at h
      injection h with h
      subst h
      exact ⟨List.mem_cons_self x rest, hx⟩
    · rw [if_neg hx] at h
      obtain ⟨h1, h2⟩ := ih h
      exact ⟨List.mem_cons_of_mem x h1, h2⟩

theorem findGroup_eq_of_mem {store : List GroupRec} {g : GroupRec}
    (hn : namesUnique store) (hg : g ∈ store) : findGroup store g.name = some g := by
  induction store with
  | nil => cases hg
  | cons x rest ih =>
    unfold namesUnique at hn
    rw [List.pairwise_cons] at hn
    rcases List.mem_cons.mp hg with rfl | hg2
    · rw [findGroup_cons, if_pos rfl]
    · rw [findGroup_cons, if_neg (fun hx : x.name = g.name => (hn.1 g hg2) hx)]
      exact ih hn.2 hg2

theorem findGroup_map {store : List GroupRec} {P : GroupRec → GroupRec} {n : String}
    (hP : ∀ t ∈ store, (P t).name = t.name) :
    findGroup (store.map P) n = (findGroup store n).map P := by
  induction store with
  | nil => rfl
  | cons x rest ih =>
    simp only [List.map_cons, findGroup_cons]
    rw [hP x (List.mem_cons_self x rest)]
    by_cases hx : x.name = n
    · rw [if_pos hx, if_pos hx]
      rfl
    · rw [if_neg hx, if_neg hx]
      exact ih (fun t ht => hP t (List.mem_cons_of_mem x ht))

theorem findGroup_append {store store2 : List GroupRec} {n : String}
    (h : ∀ r ∈ store, r.name ≠ n) :
    findGroup (store ++ store2) n = findGroup store2 n := by
  induction store with
  | nil => rfl
  | cons x rest ih =>
    simp only [List.cons_append, findGroup_cons]
    rw [if_neg (h x (List.mem_cons_self x rest))]
    exact ih (fun r hr => h r (List.mem_cons_of_mem x hr))

/-! Lemmas about the JavaScript-style index lookup. -/

theorem listIndexOf_nil (m : Nat) : listIndexOf m [] = -1 := rfl

theorem listIndexOf_cons (m x : Nat) (xs : List Nat) :
    listIndexOf m (x :: xs) =
      if x = m then 0
      else if listIndexOf m xs = -1 then -1 else listIndexOf m xs + 1 := rfl

theorem listIndexOf_cases (m : Nat) (l : List Nat) :
    listIndexOf m l = -1 ∨ 0 ≤ listIndexOf m l := by
  induction l with
  | nil => left; rfl
  | cons x xs ih =>
    rw [listIndexOf_cons]
    by_cases hx : x = m
    · rw [if_pos hx]; right; omega
    · rw [if_neg hx]
      rcases ih with h | h
      · rw [if_pos h]; left; rfl
      · by_cases hne : listIndexOf m xs = -1
        · rw [if_pos hne]; left; rfl
        · rw [if_neg hne]; right; omega

theorem listIndexOf_eq_neg_one_iff (m : Nat) (l : List Nat) :
    listIndexOf m l = -1 ↔ m ∉ l := by
  induction l with
  | nil => simp [listIndexOf_nil]
  | cons x xs ih =>
    rw [listIndexOf_cons]
    by_cases hx : x = m
    · rw [if_pos hx]
      simp [hx]
    · rw [if_neg hx]
      by_cases h : listIndexOf m xs = -1
      · rw [if_pos h]
        simp only [List.mem_cons, not_or]
        exact ⟨fun _ => ⟨fun he => hx he.symm, ih.mp h⟩, fun _ => by trivial⟩
      · rw [if_neg h]
        have hnn : 0 ≤ listIndexOf m xs := by
          rcases listIndexOf_cases m xs with h2 | h2
          · exact absurd h2 h
          · exact h2
        simp only [List.mem_cons, not_or]
        constructor
        · intro habs; omega
        · intro hcon
          exact absurd (ih.mpr hcon.2) h

theorem listIndexOf_getD (m : Nat) (l : List Nat) (h : listIndexOf m l ≠ -1) :
    (listIndexOf m l).toNat < l.length ∧ l.getD (listIndexOf m l).toNat 0 = m := by
  induction l with
  | nil => simp [listIndexOf_nil] at h
  | cons x xs ih =>
    rw [listIndexOf_cons] at h ⊢
    by_cases hx : x = m
    · rw [if_pos hx]
      simp [hx]
    · rw [if_neg hx] at h ⊢
      have hxs : listIndexOf m xs ≠ -1 := by
        intro habs
        rw [if_pos habs] at h
        exact h rfl
      rw [if_neg hxs] at h ⊢
      have hnn : 0 ≤ listIndexOf m xs := by
        rcases listIndexOf_cases m xs with h2 | h2
        · exact absurd h2 hxs
        · exact h2
      have ht : (listIndexOf m xs + 1).toNat = (listIndexOf m xs).toNat + 1 := by omega
      rw [ht]
      obtain ⟨ih1, ih2⟩ := ih hxs
      refine ⟨by simpa using Nat.succ_lt_succ ih1, ?_⟩
      simpa using ih2

/-! Lemmas about the Merkle-tree model. -/

theorem rootAux_zero (level : Nat) (nodes : List Nat) :
    rootAux 0 level nodes = nodes.headD (zeros level) := rfl

theorem rootAux_succ (d level : Nat) (nodes : List Nat) :
    rootAux (d + 1) level nodes = rootAux d (level + 1) (pairUp level nodes) := rfl

theorem genProofAux_succ (d level : Nat) (l : List Nat) (i : Nat) :
    genProofAux (d + 1) level l i =
      ((if i % 2 = 0 then l.getD (i + 1) (zeros level) else l.getD (i - 1) (zeros level)) ::
        (genProofAux d (level + 1) (pairUp level l) (i / 2)).1,
       i % 2 :: (genProofAux d (level + 1) (pairUp level l) (i / 2)).2) := rfl

theorem recomputeAux_cons (cur sb b : Nat) (ss bs : List Nat) :
    recomputeAux cur (sb :: ss) (b :: bs) =
      recomputeAux (if b = 0 then hashPair cur sb else hashPair sb cur) ss bs := rfl

theorem recomputeAux_nil (cur : Nat) : recomputeAux cur [] [] = cur := rfl

theorem getD_default_irrel (l : List Nat) (i : Nat) (d1 d2 : Nat) (h : i < l.length) :
    l.getD i d1 = l.getD i d2 := by
  induction l generalizing i with
  | nil => simp at h
  | cons x xs ih =>
    cases i with
    | zero => rfl
    | succ j =>
      simp only [List.getD_cons_succ]
      exact ih j (by simpa using Nat.lt_of_succ_lt_succ h)

theorem pairUp_length : ∀ (level : Nat) (l : List Nat),
    (pairUp level l).length = (l.length + 1) / 2
  | _, [] => by simp [pairUp]
  | _, [_] => by simp [pairUp]
  | level, a :: b :: rest => by
    have ih := pairUp_length level rest
    simp only [pairUp, List.length_cons, ih]
    omega

theorem pairUp_getD : ∀ (level : Nat) (l : List Nat) (j : Nat), 2 * j < l.length →
    (pairUp level l).getD j 0 =
      hashPair (l.getD (2 * j) (zeros level)) (l.getD (2 * j + 1) (zeros level))
  | _, [], j, h => by simp at h
  | level, [a], j, h => by
    have hj : j = 0 := by simp at h; omega
    subst hj
    simp [pairUp]
  | level, a :: b :: rest, 0, _ => by simp [pairUp]
  | level, a :: b :: rest, j + 1, h => by
    have hlt : 2 * j < rest.length := by
      simp only [List.length_cons] at h
      omega
    have ih := pairUp_getD level rest j hlt
    have e1 : 2 * (j + 1) = 2 * j + 1 + 1 := by omega
    have e2 : 2 * (j + 1) + 1 = 2 * j + 1 + 1 + 1 := by omega
    simp only [pairUp, e1, e2, List.getD_cons_succ]
    exact ih

/-- Correctness of the modelled proof generation: folding the sibling path
of the leaf at any in-range index recomputes exactly the tree root, for any
leaf count within the capacity of the depth. -/
theorem recompute_eq_root : ∀ (d level : Nat) (l : List Nat) (i : Nat),
    i < l.length → l.length ≤ 2 ^ d →
    recomputeAux (l.getD i 0) (genProofAux d level l i).1 (genProofAux d level l i).2 =
      rootAux d level l
  | 0, level, l, i, hi, hlen => by
    have h1 : l.length = 1 := by omega
    obtain ⟨x, hx⟩ := List.length_eq_one.mp h1
    subst hx
    have hi0 : i = 0 := by
      simp only [List.length_singleton] at hi
      omega
    subst hi0
    simp [genProofAux, recomputeAux_nil, rootAux_zero]
  | d + 1, level, l, i, hi, hlen => by
    have hpl : (pairUp level l).length = (l.length + 1) / 2 := pairUp_length level l
    have hplt : i / 2 < (pairUp level l).length := by omega
    have hp2 : 2 ^ (d + 1) = 2 * 2 ^ d := by
      rw [Nat.pow_succ]
      omega
    have hle2 : (pairUp level l).length ≤ 2 ^ d := by omega
    have ih := recompute_eq_root d (level + 1) (pairUp level l) (i / 2) hplt hle2
    have hjl : 2 * (i / 2) < l.length := by omega
    rw [genProofAux_succ, recomputeAux_cons]
    by_cases hpar : i % 2 = 0
    · have e1 : 2 * (i / 2) = i := by omega
      have hnode : (pairUp level l).getD (i / 2) 0 =
          hashPair (l.getD i 0) (l.getD (i + 1) (zeros level)) := by
        rw [pairUp_getD level l (i / 2) hjl, e1,
          getD_default_irrel l i (zeros level) 0 hi]
      rw [if_pos hpar, if_pos hpar, ← hnode, rootAux_succ]
      exact ih
    · have e1 : 2 * (i / 2) = i - 1 := by omega
      have e2 : i - 1 + 1 = i := by omega
      have hnode : (pairUp level l).getD (i / 2) 0 =
          hashPair (l.getD (i - 1) (zeros level)) (l.getD i 0) := by
        rw [pairUp_getD level l (i / 2) hjl, e1, e2,
          getD_default_irrel l i (zeros level) 0 hi]
      rw [if_neg hpar, if_neg hpar, ← hnode, rootAux_succ]
      exact ih

theorem addMembers_spec : ∀ (ms : List Nat) (g : CachedGroup),
    CachedGroup.addMembers g ms = ⟨g.gid, g.depth, g.leaves ++ ms⟩
  | [], g => by simp [CachedGroup.addMembers]
  | m :: ms, g => by
    have ih := addMembers_spec ms (g.addMember m)
    show CachedGroup.addMembers (g.addMember m) ms = _
    rw [ih]
    simp [CachedGroup.addMember]

/-! Preservation of the mirror invariant. -/

theorem mirror_congr {s t : ServiceState} (h : mirror s) (h1 : t.store = s.store)
    (h2 : t.nextRid = s.nextRid) (h3 : t.cachedGroups = s.cachedGroups) : mirror t := by
  unfold mirror namesUnique ridsOk at h ⊢
  rw [h1, h2, h3]
  exact h

theorem mirror_insert (s : ServiceState) (hm : mirror s) (name description : String)
    (treeDepth : Nat) (tag admin : String) (hf : ∀ r ∈ s.store, r.name ≠ name) :
    mirror { s with
      store := s.store ++ [⟨some s.nextRid, name, description, treeDepth, tag, admin, []⟩]
      nextRid := s.nextRid + 1
      cachedGroups := mapSet s.cachedGroups name ⟨none, treeDepth, []⟩ } := by
  obtain ⟨hn, ⟨hr1, hr2, hr3⟩, hd1, hd2⟩ := hm
  refine ⟨?_, ⟨?_, ?_, ?_⟩, ?_, ?_⟩
  · unfold namesUnique at hn ⊢
    rw [List.pairwise_append]
    refine ⟨hn, by simp, ?_⟩
    intro a ha b hb
    rw [List.mem_singleton.mp hb]
    exact hf a ha
  · intro g hg
    rcases List.mem_append.mp hg with h | h
    · exact hr1 g h
    · rw [List.mem_singleton.mp h]
      rfl
  · intro g hg
    rcases List.mem_append.mp hg with h | h
    · exact Nat.lt_succ_of_lt (hr2 g h)
    · rw [List.mem_singleton.mp h]
      exact Nat.lt_succ_self _
  · rw [List.pairwise_append]
    refine ⟨hr3, by simp, ?_⟩
    intro a ha b hb
    rw [List.mem_singleton.mp hb]
    obtain ⟨j, hj⟩ := Option.isSome_iff_exists.mp (hr1 a ha)
    have hjlt : j < s.nextRid := by
      have := hr2 a ha
      rw [hj] at this
      simpa using this
    rw [hj]
    intro hcon
    injection hcon with hcon
    omega
  · intro p hp
    rcases mem_mapSet hp with rfl | ⟨hpm, hpne⟩
    · exact ⟨⟨some s.nextRid, name, description, treeDepth, tag, admin, []⟩,
        List.mem_append_right _ (List.mem_singleton.mpr rfl), rfl, rfl, rfl⟩
    · obtain ⟨g, hgmem, hgn, hl, hd⟩ := hd1 p hpm
      exact ⟨g, List.mem_append_left _ hgmem, hgn, hl, hd⟩
  · intro g hg
    rcases List.mem_append.mp hg with h | h
    · rw [mapGet_mapSet_ne _ _ _ _ (hf g h)]
      exact hd2 g h
    · rw [List.mem_singleton.mp h]
      rw [mapGet_mapSet_self]
      rfl

theorem mirror_addStep (s : ServiceState) (hm : mirror s) {gname : String} {m : Nat}
    {cg : CachedGroup} {g : GroupRec}
    (hcg : mapGet s.cachedGroups gname = some cg)
    (hg : findGroup s.store gname = some g) :
    mirror { s with
      store := s.store.map
        (fun t => if t.rid = g.rid then { g with members := g.members ++ [m] } else t)
      cachedGroups := mapSet s.cachedGroups gname (cg.addMember m) } := by
  obtain ⟨hn, ⟨hr1, hr2, hr3⟩, hd1, hd2⟩ := hm
  obtain ⟨hgmem, hgname⟩ := findGroup_some hg
  set g1 : GroupRec := { g with members := g.members ++ [m] } with hg1
  set P : GroupRec → GroupRec := fun t => if t.rid = g.rid then g1 else t with hP
  have hPg : P g = g1 := by
    rw [hP]
    simp
  have hPother : ∀ t ∈ s.store, t ≠ g → P t = t := by
    intro t ht hne
    rw [hP]
    simp only
    rw [if_neg (fun hrid => hne (pairwise_inj hr3 ht hgmem hrid))]
  have hPname : ∀ t ∈ s.store, (P t).name = t.name := by
    intro t ht
    by_cases hne : t = g
    · subst hne
      rw [hPg, hg1]
    · rw [hPother t ht hne]
  have hPrid : ∀ t ∈ s.store, (P t).rid = t.rid := by
    intro t ht
    by_cases hne : t = g
    · subst hne
      rw [hPg, hg1]
    · rw [hPother t ht hne]
  refine ⟨?_, ⟨?_, ?_, ?_⟩, ?_, ?_⟩
  · unfold namesUnique at hn ⊢
    rw [List.pairwise_map]
    refine hn.imp_of_mem ?_
    intro a b ha hb hab
    rw [hPname a ha, hPname b hb]
    exact hab
  · intro t ht
    obtain ⟨a, ha, rfl⟩ := List.mem_map.mp ht
    rw [hPrid a ha]
    exact hr1 a ha
  · intro t ht
    obtain ⟨a, ha, rfl⟩ := List.mem_map.mp ht
    rw [hPrid a ha]
    exact hr2 a ha
  · rw [List.pairwise_map]
    refine hr3.imp_of_mem ?_
    intro a b ha hb hab
    rw [hPrid a ha, hPrid b hb]
    exact hab
  · intro p hp
    rcases mem_mapSet hp with rfl | ⟨hpm, hpne⟩
    · refine ⟨g1, ?_, ?_, ?_, ?_⟩
      · rw [← hPg]
        exact List.mem_map_of_mem P hgmem
      · rw [hg1]
        exact hgname
      · obtain ⟨g2, hg2mem, hg2name, hleaves, hdepth⟩ :=
          hd1 (gname, cg) (mapGet_some_mem hcg)
        have hg2 : g2 = g := pairwise_inj hn hg2mem hgmem (by rw [hg2name, hgname])
        subst hg2
        rw [hg1]
        simp only [CachedGroup.addMember]
        rw [hleaves]
      · obtain ⟨g2, hg2mem, hg2name, hleaves, hdepth⟩ :=
          hd1 (gname, cg) (mapGet_some_mem hcg)
        have hg2 : g2 = g := pairwise_inj hn hg2mem hgmem (by rw [hg2name, hgname])
        subst hg2
        rw [hg1]
        simp only [CachedGroup.addMember]
        exact hdepth
    · obtain ⟨g2, hg2mem, hg2name, hl, hd⟩ := hd1 p hpm
      have hne : g2 ≠ g := by
        intro hcon
        subst hcon
        exact hpne (by rw [← hg2name, hgname])
      refine ⟨g2, ?_, hg2name, hl, hd⟩
      rw [← hPother g2 hg2mem hne]
      exact List.mem_map_of_mem P hg2mem
  · intro t ht
    obtain ⟨a, ha, rfl⟩ := List.mem_map.mp ht
    by_cases hne : a = g
    · subst hne
      rw [hPg]
      have : g1.name = gname := by
        rw [hg1]
        exact hgname
      rw [this, mapGet_mapSet_self]
      rfl
    · rw [hPother a ha hne]
      have hanin : a.name ≠ gname := by
        intro hcon
        exact hne (pairwise_inj hn ha hgmem (by rw [hcon, hgname]))
      rw [mapGet_mapSet_ne _ _ _ _ hanin]
      exact hd2 a ha

/-! Lemmas about the bootstrap fold. -/

theorem bootstrap_fold_skip : ∀ (store : List GroupRec)
    (acc : List (String × CachedGroup)) (n : String),
    (∀ r ∈ store, r.name ≠ n) →
    mapGet (store.foldl bootstrapStep acc) n = mapGet acc n
  | [], _, _, _ => rfl
  | x :: rest, acc, n, h => by
    show mapGet (rest.foldl bootstrapStep (bootstrapStep acc x)) n = _
    rw [bootstrap_fold_skip rest _ n (fun r hr => h r (List.mem_cons_of_mem x hr))]
    unfold bootstrapStep
    exact mapGet_mapSet_ne _ _ _ _ (fun he => (h x (List.mem_cons_self x rest)) he.symm)

theorem bootstrap_fold_mem : ∀ (store : List GroupRec)
    (acc : List (String × CachedGroup)) (g : GroupRec),
    namesUnique store → g ∈ store →
    mapGet (store.foldl bootstrapStep acc) g.name =
      some (CachedGroup.addMembers ⟨some (idHash g.name), g.treeDepth, []⟩ g.members)
  | [], _, g, _, hg => absurd hg (List.not_mem_nil g)
  | x :: rest, acc, g, hn, hg => by
    unfold namesUnique at hn
    rw [List.pairwise_cons] at hn
    rcases List.mem_cons.mp hg with rfl | hg2
    · show mapGet (rest.foldl bootstrapStep (bootstrapStep acc g)) g.name = _
      rw [bootstrap_fold_skip rest _ g.name
        (fun r hr he => hn.1 r hr he.symm)]
      unfold bootstrapStep
      exact mapGet_mapSet_self _ _ _
    · exact bootstrap_fold_mem rest _ g hn.2 hg2

/-! Inversion lemmas for the service operations. -/

theorem redeemInvite_ok_fields {s : ServiceState} {code gname : String}
    {s1 : ServiceState} (h : redeemInvite s code gname = .ok s1) :
    s1.store = s.store ∧ s1.nextRid = s.nextRid ∧ s1.cachedGroups = s.cachedGroups ∧
    s1.updatedGroups = s.updatedGroups ∧ s1.timeouts = s.timeouts ∧
    s1.submitted = s.submitted ∧ s1.infoLogs = s.infoLogs ∧ s1.errorLogs = s.errorLogs := by
  unfold redeemInvite at h
  split at h
  · injection h with h
    subst h
    exact ⟨rfl, rfl, rfl, rfl, rfl, rfl, rfl, rfl⟩
  · exact absurd h (by simp)

theorem repoSave_ok_fields {s : ServiceState} {g : GroupRec} {s2 : ServiceState}
    (h : repoSave s g = .ok s2) :
    s2.cachedGroups = s.cachedGroups ∧ s2.updatedGroups = s.updatedGroups ∧
    s2.timeouts = s.timeouts ∧ s2.submitted = s.submitted ∧
    s2.inviteCodes = s.inviteCodes ∧ s2.infoLogs = s.infoLogs ∧
    s2.errorLogs = s.errorLogs := by
  unfold repoSave at h
  split at h
  · split at h
    · exact absurd h (by simp)
    · injection h with h
      subst h
      exact ⟨rfl, rfl, rfl, rfl, rfl, rfl, rfl⟩
  · injection h with h
    subst h
    exact ⟨rfl, rfl, rfl, rfl, rfl, rfl, rfl⟩

theorem repoSave_ok_cases {s : ServiceState} {g : GroupRec} {s2 : ServiceState}
    (h : repoSave s g = .ok s2) :
    (g.rid = none ∧ (∀ r ∈ s.store, r.name ≠ g.name) ∧
      s2.store = s.store ++ [{ g with rid := some s.nextRid }] ∧
      s2.nextRid = s.nextRid + 1) ∨
    ((∃ j, g.rid = some j) ∧
      s2.store = s.store.map (fun r => if r.rid = g.rid then g else r) ∧
      s2.nextRid = s.nextRid) := by
  unfold repoSave at h
  split at h
  · rename_i heq
    split at h
    · exact absurd h (by simp)
    · rename_i hnotex
      injection h with h
      subst h
      exact Or.inl ⟨heq, fun r hr he => hnotex ⟨r, hr, he⟩, rfl, rfl⟩
  · rename_i j heq
    injection h with h
    subst h
    exact Or.inr ⟨⟨j, heq⟩, rfl, rfl⟩

theorem getGroup_ok {s : ServiceState} {gname : String} {g : GroupRec}
    (h : getGroup s gname = .ok g) : findGroup s.store gname = some g := by
  unfold getGroup at h
  split at h
  · rename_i g2 hg2
    injection h with h
    subst h
    exact hg2
  · exact absurd h (by simp)

/-- Complete characterization of `createGroup`: on a taken name the store
rejects the insert and nothing changes; on a fresh name the record is
persisted with an empty member list, a fresh empty cached tree is
registered, and the saved record is returned. -/
theorem createGroup_inv (s : ServiceState) (name description : String) (treeDepth : Nat)
    (tag admin : String) :
    ((∃ r ∈ s.store, r.name = name) ∧
      createGroup s name description treeDepth tag admin = (.error .storeUnique, s)) ∨
    ((∀ r ∈ s.store, r.name ≠ name) ∧
      createGroup s name description treeDepth tag admin =
        (.ok ⟨some s.nextRid, name, description, treeDepth, tag, admin, []⟩,
         { s with
             store := s.store ++
               [⟨some s.nextRid, name, description, treeDepth, tag, admin, []⟩]
             nextRid := s.nextRid + 1
             cachedGroups := mapSet s.cachedGroups name ⟨none, treeDepth, []⟩ })) := by
  by_cases hex : ∃ r ∈ s.store, r.name = name
  · left
    refine ⟨hex, ?_⟩
    unfold createGroup repoSave
    simp only
    rw [if_pos hex]
  · right
    refine ⟨fun r hr he => hex ⟨r, hr, he⟩, ?_⟩
    unfold createGroup repoSave
    simp only
    rw [if_neg hex]

/-- Complete characterization of one `addMember` call: either it fails and
every component of the state other than the invite pool is unchanged, or it
succeeds and the persisted record, the cached tree, the queue and (when the
scheduler registry was empty) the submitted batches change exactly as the
source prescribes. -/
theorem addMember_run (s : ServiceState) (code gname : String) (m : Nat) :
    (∃ e, (addMember s code gname m).1 = .error e ∧
      (addMember s code gname m).2.store = s.store ∧
      (addMember s code gname m).2.cachedGroups = s.cachedGroups ∧
      (addMember s code gname m).2.updatedGroups = s.updatedGroups ∧
      (addMember s code gname m).2.submitted = s.submitted ∧
      (addMember s code gname m).2.timeouts = s.timeouts ∧
      (addMember s code gname m).2.nextRid = s.nextRid) ∨
    (∃ cg g, mapGet s.cachedGroups gname = some cg ∧ cg.indexOf m = -1 ∧
      findGroup s.store gname = some g ∧
      (addMember s code gname m).1 = .ok { g with members := g.members ++ [m] } ∧
      (addMember s code gname m).2.store = s.store.map
        (fun t => if t.rid = g.rid then { g with members := g.members ++ [m] } else t) ∧
      (addMember s code gname m).2.cachedGroups =
        mapSet s.cachedGroups gname (cg.addMember m) ∧
      (addMember s code gname m).2.updatedGroups =
        s.updatedGroups ++ [⟨idHash g.name, (cg.addMember m).root⟩] ∧
      (addMember s code gname m).2.timeouts = s.timeouts ∧
      (addMember s code gname m).2.nextRid = s.nextRid ∧
      (s.timeouts = 0 → (addMember s code gname m).2.submitted =
        s.submitted ++ [s.updatedGroups ++ [⟨idHash g.name, (cg.addMember m).root⟩]]) ∧
      (s.timeouts ≠ 0 → (addMember s code gname m).2.submitted = s.submitted)) := by
  cases his : isGroupMember s gname m with
  | error e1 =>
    have heq : addMember s code gname m = (.error e1, s) := by
      simp only [addMember, his]
    left
    exact ⟨e1, by rw [heq], by rw [heq], by rw [heq], by rw [heq], by rw [heq],
      by rw [heq], by rw [heq]⟩
  | ok b =>
    cases b with
    | true =>
      have heq : addMember s code gname m =
          (.error (.badRequest ("Member already exists in the group " ++ gname)), s) := by
        simp only [addMember, his]
      left
      exact ⟨_, by rw [heq], by rw [heq], by rw [heq], by rw [heq], by rw [heq],
        by rw [heq], by rw [heq]⟩
    | false =>
      obtain ⟨cg, hcg, hidx⟩ : ∃ cg, mapGet s.cachedGroups gname = some cg ∧
          cg.indexOf m = -1 := by
        unfold isGroupMember at his
        cases hmg : mapGet s.cachedGroups gname with
        | none =>
          rw [hmg] at his
          exact absurd his (by simp)
        | some cg =>
          rw [hmg] at his
          injection his with his
          refine ⟨cg, rfl, ?_⟩
          simpa using his
      cases hred : redeemInvite s code gname with
      | error e2 =>
        have heq : addMember s code gname m = (.error e2, s) := by
          simp only [addMember, his, hred]
        left
        exact ⟨e2, by rw [heq], by rw [heq], by rw [heq], by rw [heq], by rw [heq],
          by rw [heq], by rw [heq]⟩
      | ok s1 =>
        obtain ⟨f1, f2, f3, f4, f5, f6, f7, f8⟩ := redeemInvite_ok_fields hred
        cases hget : getGroup s1 gname with
        | error e3 =>
          have heq : addMember s code gname m = (.error e3, s1) := by
            simp only [addMember, his, hred, hget]
          left
          exact ⟨e3, by rw [heq], by rw [heq]; exact f1,
            by rw [heq]; exact f3, by rw [heq]; exact f4, by rw [heq]; exact f6,
            by rw [heq]; exact f5, by rw [heq]; exact f2⟩
        | ok g =>
          have hfind : findGroup s.store gname = some g := by
            rw [← f1]
            exact getGroup_ok hget
          cases hsave : repoSave s1 { g with members := g.members ++ [m] } with
          | error e4 =>
            have heq : addMember s code gname m = (.error e4, s1) := by
              simp only [addMember, his, hred, hget, hsave]
            left
            exact ⟨e4, by rw [heq], by rw [heq]; exact f1,
              by rw [heq]; exact f3, by rw [heq]; exact f4, by rw [heq]; exact f6,
              by rw [heq]; exact f5, by rw [heq]; exact f2⟩
          | ok s2 =>
            obtain ⟨k1, k2, k3, k4, k5, k6, k7⟩ := repoSave_ok_fields hsave
            rcases repoSave_ok_cases hsave with ⟨hnone, hnox, hsx, hnx⟩ |
              ⟨⟨j, hj⟩, hst, hnr⟩
            · exfalso
              obtain ⟨hgmem, hgname⟩ := findGroup_some hfind
              exact hnox g (by rw [f1]; exact hgmem) rfl
            · have hmg2 : mapGet s2.cachedGroups gname = some cg := by
                rw [k1, f3]
                exact hcg
              have hst2 : s2.store = s.store.map
                  (fun t => if t.rid = g.rid
                    then { g with members := g.members ++ [m] } else t) := by
                rw [hst, f1]
              right
              by_cases ht : s.timeouts = 0
              · have heq : addMember s code gname m =
                    (.ok { g with members := g.members ++ [m] },
                     { s2 with
                         cachedGroups := mapSet s2.cachedGroups gname (cg.addMember m)
                         updatedGroups := s2.updatedGroups ++
                           [⟨idHash g.name, (cg.addMember m).root⟩]
                         submitted := s2.submitted ++
                           [s2.updatedGroups ++
                             [⟨idHash g.name, (cg.addMember m).root⟩]] }) := by
                  simp [addMember, his, hred, hget, hsave, hmg2, enqueueUpdate,
                    updateContractGroupsStart, k3, f5, ht]
                refine ⟨cg, g, hcg, hidx, hfind, by rw [heq], ?_, ?_, ?_, ?_, ?_,
                  ?_, ?_⟩
                · rw [heq]
                  exact hst2
                · rw [heq]
                  dsimp only
                  rw [k1, f3]
                · rw [heq]
                  dsimp only
                  rw [k2, f4]
                · rw [heq]
                  dsimp only
                  rw [k3, f5]
                · rw [heq]
                  dsimp only
                  rw [hnr, f2]
                · intro _
                  rw [heq]
                  dsimp only
                  rw [k4, f6, k2, f4]
                · intro hcon
                  exact absurd ht hcon
              · have heq : addMember s code gname m =
                    (.ok { g with members := g.members ++ [m] },
                     { s2 with
                         cachedGroups := mapSet s2.cachedGroups gname (cg.addMember m)
                         updatedGroups := s2.updatedGroups ++
                           [⟨idHash g.name, (cg.addMember m).root⟩] }) := by
                  simp [addMember, his, hred, hget, hsave, hmg2, enqueueUpdate,
                    updateContractGroupsStart, k3, f5, ht]
                refine ⟨cg, g, hcg, hidx, hfind, by rw [heq], ?_, ?_, ?_, ?_, ?_,
                  ?_, ?_⟩
                · rw [heq]
                  exact hst2
                · rw [heq]
                  dsimp only
                  rw [k1, f3]
                · rw [heq]
                  dsimp only
                  rw [k2, f4]
                · rw [heq]
                  dsimp only
                  rw [k3, f5]
                · rw [heq]
                  dsimp only
                  rw [hnr, f2]
                · intro hcon
                  exact absurd hcon ht
                · intro _
                  rw [heq]
                  dsimp only
                  rw [k4, f6]

/-! Claim theorems. -/

/-- C1: cache-store mirror invariant.  For every group, after every
operation of the service (`createGroup`, `addMember`) run from a mirrored
state, the leaf sequence of the cached tree registered under the group's
name equals the ordered member list of the persisted record; a successful
mutation updates both sides together (empty record plus empty tree on
create, appended member plus appended leaf on add), and a failed mutation
changes neither the store nor the cache. -/
theorem c1_cache_store_mirror (s : ServiceState) (hm : mirror s) :
    (∀ name description treeDepth tag admin,
      mirror (createGroup s name description treeDepth tag admin).2 ∧
      (∀ e, (createGroup s name description treeDepth tag admin).1 = .error e →
        (createGroup s name description treeDepth tag admin).2.store = s.store ∧
        (createGroup s name description treeDepth tag admin).2.cachedGroups =
          s.cachedGroups) ∧
      (∀ g, (createGroup s name description treeDepth tag admin).1 = .ok g →
        g.members = [] ∧
        mapGet (createGroup s name description treeDepth tag admin).2.cachedGroups
          name = some ⟨none, treeDepth, []⟩ ∧
        findGroup (createGroup s name description treeDepth tag admin).2.store
          name = some g)) ∧
    (∀ code gname m,
      mirror (addMember s code gname m).2 ∧
      (∀ e, (addMember s code gname m).1 = .error e →
        (addMember s code gname m).2.store = s.store ∧
        (addMember s code gname m).2.cachedGroups = s.cachedGroups) ∧
      (∀ r, (addMember s code gname m).1 = .ok r →
        ∃ cg g, mapGet s.cachedGroups gname = some cg ∧
          findGroup s.store gname = some g ∧ cg.leaves = g.members ∧
          r = { g with members := g.members ++ [m] } ∧
          mapGet (addMember s code gname m).2.cachedGroups gname =
            some (cg.addMember m) ∧
          findGroup (addMember s code gname m).2.store gname =
            some { g with members := g.members ++ [m] })) := by
  constructor
  · intro name description treeDepth tag admin
    rcases createGroup_inv s name description treeDepth tag admin with
      ⟨hex, heq⟩ | ⟨hf, heq⟩
    · refine ⟨by rw [heq]; exact hm, ?_, ?_⟩
      · intro e _
        rw [heq]
        exact ⟨rfl, rfl⟩
      · intro g hg
        rw [heq] at hg
        simp at hg
    · refine ⟨?_, ?_, ?_⟩
      · rw [heq]
        exact mirror_insert s hm name description treeDepth tag admin hf
      · intro e he
        rw [heq] at he
        simp at he
      · intro g hg
        rw [heq] at hg
        simp only at hg
        injection hg with hg
        subst hg
        refine ⟨rfl, ?_, ?_⟩
        · rw [heq]
          exact mapGet_mapSet_self _ _ _
        · rw [heq]
          dsimp only
          rw [findGroup_append hf, findGroup_cons, if_pos rfl]
  · intro code gname m
    rcases addMember_run s code gname m with ⟨e, he, a1, a2, a3, a4, a5, a6⟩ |
      ⟨cg, g, hcg, hidx, hfind, hok, hstore, hcache, hqueue, hto, hnr, hsub0, hsubn⟩
    · refine ⟨mirror_congr hm a1 a6 a2, ?_, ?_⟩
      · intro e2 _
        exact ⟨a1, a2⟩
      · intro r hr
        rw [he] at hr
        simp at hr
    · obtain ⟨hgmem, hgname⟩ := findGroup_some hfind
      obtain ⟨hn, ⟨hr1, hr2, hr3⟩, hd1, hd2⟩ := hm
      have hPname : ∀ t ∈ s.store,
          ((fun t => if t.rid = g.rid then { g with members := g.members ++ [m] }
            else t) t).name = t.name := by
        intro t ht
        by_cases hrid : t.rid = g.rid
        · have : t = g := pairwise_inj hr3 ht hgmem hrid
          subst this
          simp
        · simp only
          rw [if_neg hrid]
      refine ⟨?_, ?_, ?_⟩
      · exact mirror_congr
          (mirror_addStep s ⟨hn, ⟨hr1, hr2, hr3⟩, hd1, hd2⟩ hcg hfind)
          (by rw [hstore]) (by rw [hnr]) (by rw [hcache])
      · intro e he
        rw [hok] at he
        simp at he
      · intro r hr
        rw [hok] at hr
        injection hr with hr
        subst hr
        obtain ⟨g2, hg2mem, hg2name, hleaves, hdepth⟩ :=
          hd1 (gname, cg) (mapGet_some_mem hcg)
        have hg2 : g2 = g := pairwise_inj hn hg2mem hgmem (by rw [hg2name, hgname])
        rw [hg2] at hleaves
        refine ⟨cg, g, hcg, hfind, hleaves, rfl, ?_, ?_⟩
        · rw [hcache]
          exact mapGet_mapSet_self _ _ _
        · rw [hstore, findGroup_map hPname, hfind]
          simp

/-- C1 witness: the invariant theorem applied to the concrete one-group
state, for a create of a fresh name and an add with a valid invite. -/
theorem c1_w : mirror s0 ∧
    mirror (createGroup s0 "g2" "d2" 3 "t2" "bob").2 ∧
    mirror (addMember s0 "inv1" "voters" 5).2 :=
  ⟨by decide, ((c1_cache_store_mirror s0 (by decide)).1 "g2" "d2" 3 "t2" "bob").1,
    ((c1_cache_store_mirror s0 (by decide)).2 "inv1" "voters" 5).1⟩

/-- C2: invite-failure atomicity.  When the duplicate check passes and
invite redemption fails (the code is not among the outstanding one-time
credentials), `addMember` returns the invite subsystem's error and the
returned state is exactly the pre-call state: persisted member lists,
cached leaves, roots and the pending-update queue are all unchanged. -/
theorem c2_invite_failure_atomic (s : ServiceState) (code gname : String) (m : Nat)
    (h1 : isGroupMember s gname m = .ok false)
    (h2 : (code, gname) ∉ s.inviteCodes) :
    addMember s code gname m =
      (.error (.badRequest ("invalid invite code " ++ code)), s) := by
  have hred : redeemInvite s code gname =
      .error (.badRequest ("invalid invite code " ++ code)) := by
    unfold redeemInvite
    rw [if_neg h2]
  simp only [addMember, h1, hred]

/-- C2 witness: with no outstanding invites, adding to the concrete group
fails with the invite error and returns the state unchanged. -/
theorem c2_w : addMember s0NoInv "inv1" "voters" 5 =
    (.error (.badRequest ("invalid invite code " ++ "inv1")), s0NoInv) :=
  c2_invite_failure_atomic s0NoInv "inv1" "voters" 5 (by decide) (by decide)

/-- C3: duplicate-add rejection.  If a first `addMember` call succeeded,
a second call for the same group and member (with any invite code) fails
with the duplicate-member error — the source's BadRequestException, the
spec taxonomy's Conflict category ("already a member") — and returns the
post-first-call state unchanged: the membership check aborts before any
mutation, and the queue, store and cache keep their values. -/
theorem c3_duplicate_add (s : ServiceState) (code gname : String) (m : Nat)
    (r : GroupRec) (s1 : ServiceState) (code2 : String)
    (h1 : addMember s code gname m = (.ok r, s1)) :
    addMember s1 code2 gname m =
      (.error (.badRequest ("Member already exists in the group " ++ gname)), s1) := by
  rcases addMember_run s code gname m with ⟨e, he, _⟩ |
    ⟨cg, g, hcg, hidx, hfind, hok, hstore, hcache, _⟩
  · rw [h1] at he
    simp at he
  · have hcache1 : s1.cachedGroups = mapSet s.cachedGroups gname (cg.addMember m) := by
      rw [← hcache, h1]
    have hmg : mapGet s1.cachedGroups gname = some (cg.addMember m) := by
      rw [hcache1]
      exact mapGet_mapSet_self _ _ _
    have hmem : (cg.addMember m).indexOf m ≠ -1 := by
      unfold CachedGroup.indexOf
      rw [Ne, listIndexOf_eq_neg_one_iff]
      simp [CachedGroup.addMember]
    have his : isGroupMember s1 gname m = .ok true := by
      simp only [isGroupMember, hmg]
      exact congrArg Except.ok (bne_iff_ne.mpr hmem)
    simp only [addMember, his]

/-- C3 witness: adding the member 5 to the concrete group twice; the second
call fails with the duplicate error and leaves the state unchanged. -/
theorem c3_w : addMember (addMember s0 "inv1" "voters" 5).2 "other" "voters" 5 =
    (.error (.badRequest ("Member already exists in the group " ++ "voters")),
     (addMember s0 "inv1" "voters" 5).2) :=
  c3_duplicate_add s0 "inv1" "voters" 5 ⟨some 0, "voters", "d", 2, "t", "alice", [5]⟩
    (addMember s0 "inv1" "voters" 5).2 "other" (by decide)

/-- C4: post-add observability.  After a successful `addMember` within the
tree's capacity, the member is observable (`isGroupMember` is true), the
proof query succeeds and folding its sibling path recomputes exactly the
current root of the group's cached tree, and the entry (id derived from the
group name, that root) has been appended to the pending-update queue. -/
theorem c4_post_add (s : ServiceState) (code gname : String) (m : Nat) (r : GroupRec)
    (s1 : ServiceState) (cg : CachedGroup)
    (h1 : addMember s code gname m = (.ok r, s1))
    (hcg : mapGet s.cachedGroups gname = some cg)
    (hcap : cg.leaves.length + 1 ≤ 2 ^ cg.depth) :
    isGroupMember s1 gname m = .ok true ∧
    (∃ p, generateMerkleProof s1 gname m = .ok p ∧
      rootOf s1 gname = some (MerkleProof.recompute p)) ∧
    s1.updatedGroups = s.updatedGroups ++ [⟨idHash gname, (cg.addMember m).root⟩] ∧
    rootOf s1 gname = some (cg.addMember m).root := by
  rcases addMember_run s code gname m with ⟨e, he, _⟩ |
    ⟨cg2, g, hcg2, hidx, hfind, hok, hstore, hcache, hqueue, hto, hnr, hsub0, hsubn⟩
  · rw [h1] at he
    simp at he
  · have hcgeq : cg2 = cg := by
      rw [hcg] at hcg2
      injection hcg2 with h
      exact h.symm
    rw [hcgeq] at hcache hqueue hsub0
    have hgname : g.name = gname := (findGroup_some hfind).2
    have hcache1 : s1.cachedGroups = mapSet s.cachedGroups gname (cg.addMember m) := by
      rw [← hcache, h1]
    have hmg : mapGet s1.cachedGroups gname = some (cg.addMember m) := by
      rw [hcache1]
      exact mapGet_mapSet_self _ _ _
    have hmem : (cg.addMember m).indexOf m ≠ -1 := by
      unfold CachedGroup.indexOf
      rw [Ne, listIndexOf_eq_neg_one_iff]
      simp [CachedGroup.addMember]
    have his : isGroupMember s1 gname m = .ok true := by
      simp only [isGroupMember, hmg]
      exact congrArg Except.ok (bne_iff_ne.mpr hmem)
    have hroot : rootOf s1 gname = some (cg.addMember m).root := by
      unfold rootOf
      rw [hmg]
      rfl
    obtain ⟨hilt, hig⟩ := listIndexOf_getD m (cg.addMember m).leaves hmem
    have hlen : (cg.addMember m).leaves.length ≤ 2 ^ (cg.addMember m).depth := by
      simpa [CachedGroup.addMember] using hcap
    have hrec := recompute_eq_root (cg.addMember m).depth 0 (cg.addMember m).leaves
      (listIndexOf m (cg.addMember m).leaves).toNat hilt hlen
    refine ⟨his, ?_, ?_, hroot⟩
    · refine ⟨(cg.addMember m).generateMerkleProof
        ((cg.addMember m).indexOf m).toNat, ?_, ?_⟩
      · unfold generateMerkleProof
        rw [his, hmg]
      · rw [hroot]
        unfold MerkleProof.recompute CachedGroup.generateMerkleProof
        dsimp only
        unfold CachedGroup.root
        unfold CachedGroup.indexOf
        rw [hrec]
    · rw [hgname] at hqueue
      rw [← hqueue, h1]

/-- C4 witness: the observability theorem applied to the concrete one-group
state with the member 5 and a depth-2 tree. -/
theorem c4_w :
    isGroupMember (addMember s0 "inv1" "voters" 5).2 "voters" 5 = .ok true ∧
    (addMember s0 "inv1" "voters" 5).2.updatedGroups =
      s0.updatedGroups ++
        [⟨idHash "voters", (CachedGroup.addMember ⟨none, 2, []⟩ 5).root⟩] ∧
    rootOf (addMember s0 "inv1" "voters" 5).2 "voters" =
      some (CachedGroup.addMember ⟨none, 2, []⟩ 5).root :=
  ⟨(c4_post_add s0 "inv1" "voters" 5 ⟨some 0, "voters", "d", 2, "t", "alice", [5]⟩
      (addMember s0 "inv1" "voters" 5).2 ⟨none, 2, []⟩ (by decide) (by decide)
      (by decide)).1,
   (c4_post_add s0 "inv1" "voters" 5 ⟨some 0, "voters", "d", 2, "t", "alice", [5]⟩
      (addMember s0 "inv1" "voters" 5).2 ⟨none, 2, []⟩ (by decide) (by decide)
      (by decide)).2.2.1,
   (c4_post_add s0 "inv1" "voters" 5 ⟨some 0, "voters", "d", 2, "t", "alice", [5]⟩
      (addMember s0 "inv1" "voters" 5).2 ⟨none, 2, []⟩ (by decide) (by decide)
      (by decide)).2.2.2⟩

/-- C5: bootstrap fidelity.  For every persisted store with unique names,
after the constructor's bootstrap the root of the cached tree of each
record equals the root obtained by inserting its members, in stored order,
into a freshly created tree of its depth; and in any mirrored service
state — in particular one reached by `createGroup` followed by
`addMember` calls — each cached root equals that same rebuilt-from-store
root, so a restart reproduces the cached roots. -/
theorem c5_bootstrap_fidelity :
    (∀ (store : List GroupRec), namesUnique store → ∀ g ∈ store,
      (mapGet (bootstrapCache store) g.name).map CachedGroup.root =
        some (freshInsertRoot g.treeDepth g.members)) ∧
    (∀ s : ServiceState, mirror s → ∀ g ∈ s.store,
      (mapGet s.cachedGroups g.name).map CachedGroup.root =
        some (freshInsertRoot g.treeDepth g.members)) := by
  constructor
  · intro store hn g hg
    unfold bootstrapCache
    rw [bootstrap_fold_mem store [] g hn hg]
    simp [CachedGroup.root, freshInsertRoot, addMembers_spec]
  · intro s hm g hg
    obtain ⟨hn, _, hd1, hd2⟩ := hm
    obtain ⟨cg, hcg⟩ := Option.isSome_iff_exists.mp (hd2 g hg)
    rw [hcg]
    obtain ⟨g2, hg2mem, hg2name, hl, hd⟩ := hd1 (g.name, cg) (mapGet_some_mem hcg)
    have hg2 : g2 = g := pairwise_inj hn hg2mem hg hg2name
    subst hg2
    have hl2 : cg.leaves = g2.members := hl
    have hdep : cg.depth = g2.treeDepth := hd
    simp [CachedGroup.root, freshInsertRoot, addMembers_spec, hl2, hdep]

/-- C5 witness: the fidelity theorem applied to the concrete store holding
one empty depth-2 group and to the concrete mirrored service state. -/
theorem c5_w :
    (mapGet (bootstrapCache [demoGroup]) "voters").map CachedGroup.root =
      some (freshInsertRoot 2 []) ∧
    (mapGet s0.cachedGroups "voters").map CachedGroup.root =
      some (freshInsertRoot 2 []) :=
  ⟨c5_bootstrap_fidelity.1 [demoGroup] (by decide) demoGroup (by decide),
   c5_bootstrap_fidelity.2 s0 (by decide) demoGroup (by decide)⟩

/-- C6 counterexample: creating a group whose name is already taken does
fail and leaves store and cache unchanged, but the failure is the store
layer's uniqueness-constraint violation propagating out; it is not an
"already exists" Conflict exception raised by the service — the service
performs no duplicate-name check of its own, so the claimed error kind is
wrong at this concrete input. -/
theorem c6_cex :
    (createGroup s0 "voters" "x" 3 "t2" "bob").1 = .error .storeUnique ∧
    SvcError.raisedByService .storeUnique = false ∧
    (createGroup s0 "voters" "x" 3 "t2" "bob").2 = s0 := by decide

/-- C6 amended: on a taken name `createGroup` fails with the store's
propagated uniqueness-violation error (not a service-raised already-exists
Conflict exception) and leaves the state unchanged; on a fresh name it
persists a record with an empty member list, registers a matching empty
cached tree under the name, and returns the persisted record. -/
theorem c6_amended (s : ServiceState) (name description : String) (treeDepth : Nat)
    (tag admin : String) :
    ((∃ r ∈ s.store, r.name = name) →
      createGroup s name description treeDepth tag admin = (.error .storeUnique, s) ∧
      SvcError.raisedByService .storeUnique = false) ∧
    ((∀ r ∈ s.store, r.name ≠ name) →
      (createGroup s name description treeDepth tag admin).1 =
        .ok ⟨some s.nextRid, name, description, treeDepth, tag, admin, []⟩ ∧
      findGroup (createGroup s name description treeDepth tag admin).2.store name =
        some ⟨some s.nextRid, name, description, treeDepth, tag, admin, []⟩ ∧
      mapGet (createGroup s name description treeDepth tag admin).2.cachedGroups
        name = some ⟨none, treeDepth, []⟩) := by
  rcases createGroup_inv s name description treeDepth tag admin with
    ⟨hex, heq⟩ | ⟨hf, heq⟩
  · constructor
    · intro _
      exact ⟨heq, rfl⟩
    · intro hno
      obtain ⟨r, hr, hrn⟩ := hex
      exact absurd hrn (hno r hr)
  · constructor
    · intro hex
      obtain ⟨r, hr, hrn⟩ := hex
      exact absurd hrn (hf r hr)
    · intro _
      refine ⟨by rw [heq], ?_, ?_⟩
      · rw [heq]
        dsimp only
        rw [findGroup_append hf, findGroup_cons, if_pos rfl]
      · rw [heq]
        dsimp only
        exact mapGet_mapSet_self _ _ _

/-- C6 witness: the amended theorem at the concrete state — a duplicate
"voters" create fails with the store error, a fresh "g2" create succeeds
with an empty member list. -/
theorem c6_w :
    createGroup s0 "voters" "x" 3 "t2" "bob" = (.error .storeUnique, s0) ∧
    (createGroup s0 "g2" "x" 3 "t2" "bob").1 =
      .ok ⟨some 1, "g2", "x", 3, "t2", "bob", []⟩ :=
  ⟨((c6_amended s0 "voters" "x" 3 "t2" "bob").1 (by decide)).1,
   ((c6_amended s0 "g2" "x" 3 "t2" "bob").2 (by decide)).1⟩

/-- C7 counterexample: with an empty scheduler registry, a successful
`addMember` neither schedules a future publication task (the registry is
still empty afterwards) nor defers the flush — a batch has already been
handed to the ledger client inside the call itself, contradicting the
claim that the trigger schedules a delayed invocation and never executes
the flush immediately. -/
theorem c7_cex :
    s0.timeouts = 0 ∧ s0.submitted = [] ∧
    (addMember s0 "inv1" "voters" 5).2.timeouts = 0 ∧
    (addMember s0 "inv1" "voters" 5).2.submitted ≠ [] := by decide

/-- C7 amended: the publication trigger at the end of `addMember` never
registers anything in the scheduler registry; when the registry is
non-empty it is a no-op, and when the registry is empty a successful call
invokes the flush immediately, submitting the whole current queue as one
batch within the `addMember` call itself. -/
theorem c7_amended (s : ServiceState) (code gname : String) (m : Nat) :
    (addMember s code gname m).2.timeouts = s.timeouts ∧
    (∀ e, (addMember s code gname m).1 = .error e →
      (addMember s code gname m).2.submitted = s.submitted) ∧
    (s.timeouts ≠ 0 → (addMember s code gname m).2.submitted = s.submitted) ∧
    (s.timeouts = 0 → ∀ r, (addMember s code gname m).1 = .ok r →
      (addMember s code gname m).2.submitted =
        s.submitted ++ [(addMember s code gname m).2.updatedGroups]) := by
  rcases addMember_run s code gname m with ⟨e, he, a1, a2, a3, a4, a5, a6⟩ |
    ⟨cg, g, hcg, hidx, hfind, hok, hstore, hcache, hqueue, hto, hnr, hsub0, hsubn⟩
  · refine ⟨a5, fun _ _ => a4, fun _ => a4, ?_⟩
    intro ht r hr
    rw [he] at hr
    simp at hr
  · refine ⟨hto, ?_, hsubn, ?_⟩
    · intro e he
      rw [hok] at he
      simp at he
    · intro ht r _
      rw [hsub0 ht, hqueue]

/-- C7 witness: the amended theorem at the concrete state with an empty
registry — the registry stays as it was and the submitted batch equals the
post-call queue. -/
theorem c7_w :
    (addMember s0 "inv1" "voters" 5).2.timeouts = s0.timeouts ∧
    (addMember s0 "inv1" "voters" 5).2.submitted =
      s0.submitted ++ [(addMember s0 "inv1" "voters" 5).2.updatedGroups] :=
  ⟨(c7_amended s0 "inv1" "voters" 5).1,
   (c7_amended s0 "inv1" "voters" 5).2.2.2 (by decide)
     ⟨some 0, "voters", "d", 2, "t", "alice", [5]⟩ (by decide)⟩

/-- C8 counterexample: at the suspension point the batch has been submitted
while the queue still holds its old contents (nothing was cleared at the
snapshot), and an entry enqueued during the in-flight submission is wiped
by the clear that runs on resume — the final queue is empty, not the
fresh batch the claim requires. -/
theorem c8_cex :
    s1q.updatedGroups = [⟨1, 10⟩] ∧
    (updateContractGroupsStart s1q).updatedGroups = [⟨1, 10⟩] ∧
    (updateContractGroupsStart s1q).submitted = [[⟨1, 10⟩]] ∧
    (updateContractGroupsResume
      (enqueueUpdate (updateContractGroupsStart s1q) ⟨2, 20⟩) true).updatedGroups =
      ([] : List PendingUpdate) ∧
    ([] : List PendingUpdate) ≠ [⟨2, 20⟩] := by decide

/-- C8 amended: when the flush runs on a non-empty queue it submits the
batch first and clears only after the submission settles: at the
suspension point the queue still equals the submitted batch, and whatever
was enqueued between the submission and the resume is discarded by the
clear (the final queue is empty), rather than being preserved as a fresh
batch. -/
theorem c8_amended (s : ServiceState) (h : s.updatedGroups ≠ [])
    (during : List PendingUpdate) (status : Bool) :
    (updateContractGroupsStart s).submitted = s.submitted ++ [s.updatedGroups] ∧
    (updateContractGroupsStart s).updatedGroups = s.updatedGroups ∧
    (updateContractGroupsResume
      (during.foldl enqueueUpdate (updateContractGroupsStart s)) status).updatedGroups =
      ([] : List PendingUpdate) := by
  have hlen : s.updatedGroups.length > 0 := List.length_pos.mpr h
  refine ⟨?_, ?_, ?_⟩
  · unfold updateContractGroupsStart
    rw [if_pos hlen]
  · unfold updateContractGroupsStart
    rw [if_pos hlen]
  · cases status <;> rfl

/-- C8 witness: the amended theorem at the concrete one-entry queue with
one concurrent enqueue during a failing submission. -/
theorem c8_w :
    (updateContractGroupsStart s1q).submitted = s1q.submitted ++ [s1q.updatedGroups] ∧
    (updateContractGroupsResume
      (List.foldl enqueueUpdate (updateContractGroupsStart s1q)
        [(⟨2, 20⟩ : PendingUpdate)]) false).updatedGroups =
      ([] : List PendingUpdate) :=
  ⟨(c8_amended s1q (by decide) [(⟨2, 20⟩ : PendingUpdate)] false).1,
   (c8_amended s1q (by decide) [(⟨2, 20⟩ : PendingUpdate)] false).2.2⟩

/-- C9: no-retry on failed publication.  A flush on an empty queue is a
no-op; after any flush the queue is empty — in particular, on a failure
status the drained entries are not re-added — and a failing flush of a
non-empty queue logs exactly one error line while the batch stays
submitted once. -/
theorem c9_flush_no_retry (s : ServiceState) (status : Bool) :
    (s.updatedGroups = [] → updateContractGroups s status = s) ∧
    (updateContractGroups s status).updatedGroups = [] ∧
    (s.updatedGroups ≠ [] → status = false →
      (updateContractGroups s status).errorLogs = s.errorLogs + 1 ∧
      (updateContractGroups s status).submitted = s.submitted ++ [s.updatedGroups]) := by
  unfold updateContractGroups
  by_cases h : s.updatedGroups.length > 0
  · rw [if_pos h]
    refine ⟨?_, ?_, ?_⟩
    · intro he
      rw [he] at h
      simp at h
    · cases status <;> rfl
    · intro _ hst
      subst hst
      unfold updateContractGroupsResume updateContractGroupsStart
      rw [if_pos h]
      exact ⟨rfl, rfl⟩
  · rw [if_neg h]
    have he : s.updatedGroups = [] := by
      rcases List.eq_nil_or_concat s.updatedGroups with h2 | ⟨l, a, h2⟩
      · exact h2
      · exfalso
        rw [h2] at h
        simp at h
    exact ⟨fun _ => rfl, he, fun hne => absurd he hne⟩

/-- C9 witness: the flush theorem at the concrete states — a no-op on the
empty queue, and a failing flush of the one-entry queue that clears the
queue and logs one error. -/
theorem c9_w :
    updateContractGroups sEmpty true = sEmpty ∧
    (updateContractGroups s1q false).updatedGroups = [] ∧
    (updateContractGroups s1q false).errorLogs = s1q.errorLogs + 1 :=
  ⟨(c9_flush_no_retry sEmpty true).1 (by decide),
   (c9_flush_no_retry s1q false).2.1,
   ((c9_flush_no_retry s1q false).2.2 (by decide) rfl).1⟩

/-- C10 counterexample: querying a name with no registered cached tree does
not produce a guarded "unknown group" error — both `isGroupMember` and
`generateMerkleProof` dereference the absent map entry and fail with the
runtime TypeError, which is not an error the service raises. -/
theorem c10_cex :
    mapGet sEmpty.cachedGroups "g" = none ∧
    isGroupMember sEmpty "g" 1 = .error .typeError ∧
    generateMerkleProof sEmpty "g" 1 = .error .typeError ∧
    SvcError.raisedByService .typeError = false := by decide

/-- C10 amended: for every group name with no registered cached tree,
`isGroupMember` and `generateMerkleProof` terminate by raising the
unguarded missing-entry dereference failure (the JavaScript TypeError of
calling `indexOf` on `undefined`), not a specific "unknown group"
error: the cached-tree lookup is not guarded. -/
theorem c10_amended (s : ServiceState) (gname : String) (m : Nat)
    (h : mapGet s.cachedGroups gname = none) :
    isGroupMember s gname m = .error .typeError ∧
    generateMerkleProof s gname m = .error .typeError := by
  have h1 : isGroupMember s gname m = .error .typeError := by
    simp only [isGroupMember, h]
  refine ⟨h1, ?_⟩
  simp only [generateMerkleProof, h1]

/-- C10 witness: the amended theorem at the concrete empty state. -/
theorem c10_w : isGroupMember sEmpty "h" 2 = .error .typeError ∧
    generateMerkleProof sEmpty "h" 2 = .error .typeError :=
  c10_amended sEmpty "h" 2 (by decide)

end Bandada
